import Mathlib

set_option maxRecDepth 8000

/-!
Verification development for the StablePay merchant dashboard transaction
service (src/dashboard/lib/transaction-service.ts).

The TypeScript service is embedded shallowly:

* `bigint` block numbers and 256-bit log-data words become `Nat`
  (all these values are non-negative in the source: block numbers come
  from the chain, the amounts are parsed from `0x` hex strings);
* `Date` values become `Nat` milliseconds; the impure wall clock
  `new Date()` becomes an explicit `now : Nat` parameter;
* the viem `PublicClient` becomes a `Client` record of oracles whose
  fallible methods return `Except String _` (a thrown exception is an
  `error` result);
* each `while` loop with `await` inside becomes a fuel-indexed recursive
  function returning `Option (Except String _)`; `none` means the fuel ran
  out, and the fuel-sufficiency lemmas below show the default fuel used by
  the top-level wrappers always suffices, so the `none` branch of every
  wrapper is unreachable;
* `Array.prototype.sort(cmp)` (a stable merge sort in modern engines)
  becomes `jsSort cmp`, a stable top-down merge sort driven by
  `cmp a b ≤ 0`.
-/

namespace StablePay

/-! ### String helpers (JS string methods on `String.data : List Char`) -/

/-- JS `String.prototype.padStart(n, c)`: left-pad to length `n`. -/
def padStart (s : String) (n : Nat) (c : Char) : String :=
  String.mk (List.replicate (n - s.data.length) c ++ s.data)

/-- JS `fraction.replace(/(0+)$/, "")`: drop trailing `'0'` characters. -/
def trimTrailingZeros (s : String) : String :=
  String.mk ((s.data.reverse.dropWhile (fun c => c == '0')).reverse)

/-- JS `address.replace("0x", "")`: remove the first occurrence of `"0x"`. -/
def replace0xOnce : List Char → List Char
  | [] => []
  | '0' :: 'x' :: rest => rest
  | c :: rest => c :: replace0xOnce rest

/-- JS `s.slice(-40)`: the last 40 characters (whole string when shorter). -/
def sliceLast40 (l : List Char) : List Char :=
  l.drop (l.length - 40)

/-- Value of one hex digit, as used by JS `BigInt("0x...")`. -/
def hexDigitVal (c : Char) : Nat :=
  if '0' ≤ c ∧ c ≤ '9' then c.toNat - '0'.toNat
  else if 'a' ≤ c ∧ c ≤ 'f' then c.toNat - 'a'.toNat + 10
  else if 'A' ≤ c ∧ c ≤ 'F' then c.toNat - 'A'.toNat + 10
  else 0

/-- Strip a leading `"0x"` if present. -/
def drop0x : List Char → List Char
  | '0' :: 'x' :: rest => rest
  | l => l

/-- JS `BigInt(hexString)` for a `0x`-prefixed hex literal (always ≥ 0). -/
def bigIntOfHex (s : String) : Nat :=
  (drop0x s.data).foldl (fun acc c => acc * 16 + hexDigitVal c) 0

/-- Modelled from the spec: the service formats token amounts with the viem
library function `formatUnits`, which is external to this repository. The
spec describes it as exact fixed-point formatting, "decimal string, the raw
on-chain integer scaled by 10⁻ᵈ, exact — no floating-point rounding"; this
matches the published viem implementation: pad the decimal representation,
split integer and fraction parts, trim trailing fraction zeros, print the
integer part as "0" when empty. Negative values cannot occur here because
every argument comes from `bigIntOfHex`. -/
def formatUnits (value : Nat) (decimals : Nat) : String :=
  let display := padStart (Nat.repr value) decimals '0'
  let integer := String.mk (display.data.take (display.data.length - decimals))
  let fraction := trimTrailingZeros (String.mk (display.data.drop (display.data.length - decimals)))
  (if integer.data.length = 0 then "0" else integer) ++
    (if fraction.data.length = 0 then "" else "." ++ fraction)

/-- transaction-service.ts lines 79-82: `formatAddress` keeps the last 40
hex characters after removing the first `"0x"`, and re-prefixes `"0x"`.
Note the source performs no case normalization. -/
def formatAddress (address : String) : String :=
  String.mk ('0' :: 'x' :: sliceLast40 (replace0xOnce address.data))

/-! ### Data model -/

/-- One raw log entry as returned by `client.getLogs`. -/
structure RawLog where
  topics : List String
  data : String
  blockNumber : Nat
  transactionHash : String
  deriving DecidableEq

/-- transaction-service.ts lines 7-17: the `TransactionEvent` interface.
`timestamp` is a `Date` in milliseconds, optional. -/
structure TransactionEvent where
  buyer : String
  receiver : String
  amountSC : String
  amountBC : String
  blockNumber : Nat
  transactionHash : String
  timestamp : Option Nat
  chainId : Nat
  networkName : String
  deriving DecidableEq

/-- The per-network configuration consumed by the service:
`NETWORKS[networkKey]` (chainId, name) and `DEPLOYMENT_BLOCKS[networkKey]`
(`none` models a missing key, defaulted by `|| BigInt(0)` in the source). -/
structure NetworkConfig where
  chainId : Nat
  name : String
  deploymentStartBlock : Option Nat
  deriving DecidableEq

/-- The chain client capability: `getBlockNumber()`, `getLogs(...)` taking
the contract address, the optional receiver filter and the block range, and
`getBlock({blockNumber})` returning the block timestamp in seconds. An
`error` result models a thrown exception (e.g. an RPC error). -/
structure Client where
  getBlockNumber : Except String Nat
  getLogs : String → Option String → Nat → Nat → Except String (List RawLog)
  getBlock : Nat → Except String Nat

/-- transaction-service.ts lines 115-130 (and identically 249-264): decode
one raw log into a `TransactionEvent`. -/
def decodeEvent (network : NetworkConfig) (event : RawLog) : TransactionEvent :=
  let rawData := String.mk (event.data.data.drop 2)
  let amountSCHex := "0x" ++ String.mk (rawData.data.take 64)
  let amountBCHex := "0x" ++ String.mk (rawData.data.drop 64)
  { buyer := formatAddress (event.topics.getD 1 "")
    receiver := formatAddress (event.topics.getD 2 "")
    amountSC := formatUnits (bigIntOfHex amountSCHex) 6
    amountBC := formatUnits (bigIntOfHex amountBCHex) 18
    blockNumber := event.blockNumber
    transactionHash := event.transactionHash
    timestamp := none
    chainId := network.chainId
    networkName := network.name }

/-! ### JS `Array.prototype.sort` as a stable merge sort -/

/-- Stable merge of two runs: take from the left while `le`. -/
def jsMerge {α : Type} (le : α → α → Bool) : List α → List α → List α
  | [], ys => ys
  | xs, [] => xs
  | x :: xs, y :: ys =>
    if le x y then x :: jsMerge le xs (y :: ys) else y :: jsMerge le (x :: xs) ys

/-- Fuelled top-down merge sort; `jsSort` supplies fuel `l.length`, which
always suffices because both halves of a list of length ≥ 2 are shorter. -/
def jsMergeSortF {α : Type} (le : α → α → Bool) : Nat → List α → List α
  | _, [] => []
  | _, [a] => [a]
  | 0, l => l
  | fuel + 1, l =>
    jsMerge le (jsMergeSortF le fuel (l.take (l.length / 2)))
      (jsMergeSortF le fuel (l.drop (l.length / 2)))

/-- JS `array.sort(cmp)` for a consistent comparator: a stable merge sort
placing `a` before `b` when `cmp a b ≤ 0`. -/
def jsSort {α : Type} (cmp : α → α → Int) (l : List α) : List α :=
  jsMergeSortF (fun a b => decide (cmp a b ≤ 0)) l.length l

/-- transaction-service.ts line 242: `(a, b) => Number(b.blockNumber - a.blockNumber)`. -/
def blockNumberCmp (a b : RawLog) : Int :=
  (b.blockNumber : Int) - (a.blockNumber : Int)

/-- transaction-service.ts lines 288-291: the export sort comparator;
`0` whenever either timestamp is missing, otherwise descending by time. -/
def exportCmp (a b : TransactionEvent) : Int :=
  match a.timestamp, b.timestamp with
  | some ta, some tb => (tb : Int) - (ta : Int)
  | _, _ => 0

/-! ### The two scan loops, fuel-indexed -/

/-- transaction-service.ts lines 96-112: the forward scan loop. Starting at
`fromBlock`, query `[fromBlock, toBlock]` with
`toBlock = fromBlock + 49999 > current ? current : fromBlock + 49999` and
advance `fromBlock = toBlock + 1` while `fromBlock ≤ current`. Polymorphic
in the log type (the source accumulates into `any[]`), so that running it
with a range-recording oracle yields the exact query trace. -/
def forwardLoopF {α : Type} (getLogs : String → Option String → Nat → Nat → Except String (List α))
    (address : String) (merchant : Option String) (currentBlock : Nat) :
    Nat → Nat → Option (Except String (List α))
  | fuel, fromBlock =>
    if fromBlock ≤ currentBlock then
      let toBlock := if currentBlock < fromBlock + 49999 then currentBlock else fromBlock + 49999
      match getLogs address merchant fromBlock toBlock with
      | .error e => some (.error e)
      | .ok evs =>
        match fuel with
        | 0 => none
        | fuel + 1 =>
          match forwardLoopF getLogs address merchant currentBlock fuel (toBlock + 1) with
          | none => none
          | some (.error e) => some (.error e)
          | some (.ok rest) => some (.ok (evs ++ rest))
    else some (.ok [])

/-- transaction-service.ts line 233: `limit !== "all" && collected.length >= limit`. -/
def limitHit : Option Nat → Nat → Bool
  | some n, len => n ≤ len
  | none, _ => false

/-- transaction-service.ts lines 213-239: the reverse scan loop. Starting at
`toBlock = current`, query `[max(toBlock - 50000, startBlock), toBlock]`,
stop once the limit is reached or `fromBlock ≤ startBlock`, else continue
from `toBlock = fromBlock - 1`. In the source `toBlock - chunk` is a
possibly negative `bigint` immediately clamped up to `startBlock ≥ 0`;
truncated `Nat` subtraction followed by the same clamp agrees with it. -/
def reverseLoopF {α : Type} (getLogs : String → Option String → Nat → Nat → Except String (List α))
    (address : String) (merchant : Option String) (startBlock : Nat) (limit : Option Nat) :
    Nat → Nat → List α → Option (Except String (List α))
  | fuel, toBlock, acc =>
    if toBlock < startBlock then some (.ok acc)
    else
      let fromBlock0 := toBlock - 50000
      let fromBlock := if fromBlock0 < startBlock then startBlock else fromBlock0
      match getLogs address merchant fromBlock toBlock with
      | .error e => some (.error e)
      | .ok evs =>
        let acc2 := acc ++ evs
        if limitHit limit acc2.length then some (.ok acc2)
        else if fromBlock ≤ startBlock then some (.ok acc2)
        else
          match fuel with
          | 0 => none
          | fuel + 1 =>
            reverseLoopF getLogs address merchant startBlock limit fuel (fromBlock - 1) acc2

/-- Block ranges queried by the forward loop, in order. -/
def forwardChunksF (currentBlock : Nat) : Nat → Nat → List (Nat × Nat)
  | fuel, fromBlock =>
    if fromBlock ≤ currentBlock then
      let toBlock := if currentBlock < fromBlock + 49999 then currentBlock else fromBlock + 49999
      (fromBlock, toBlock) ::
        (match fuel with
         | 0 => []
         | fuel + 1 => forwardChunksF currentBlock fuel (toBlock + 1))
    else []

/-- Default fuel for the forward loop: every iteration advances `fromBlock`
by at least 50000, so `current / 50000 + 2` iterations always finish. -/
def forwardFuel (currentBlock : Nat) : Nat := currentBlock / 50000 + 2

/-- Block ranges queried by a completed forward scan from `startBlock` to
`currentBlock`. -/
def forwardChunks (startBlock currentBlock : Nat) : List (Nat × Nat) :=
  forwardChunksF currentBlock (forwardFuel currentBlock) startBlock

/-- Block ranges queried by the reverse loop (no limit break), in order. -/
def reverseChunksF (startBlock : Nat) : Nat → Nat → List (Nat × Nat)
  | fuel, toBlock =>
    if toBlock < startBlock then []
    else
      let fromBlock0 := toBlock - 50000
      let fromBlock := if fromBlock0 < startBlock then startBlock else fromBlock0
      (fromBlock, toBlock) ::
        (if fromBlock ≤ startBlock then []
         else
           match fuel with
           | 0 => []
           | fuel + 1 => reverseChunksF startBlock fuel (fromBlock - 1))

/-- Default fuel for the reverse loop: every continuing iteration moves
`toBlock` down by 50001. -/
def reverseFuel (currentBlock : Nat) : Nat := currentBlock / 50001 + 1

/-- Block ranges queried by a completed (`limit = "all"`) reverse scan. -/
def reverseChunks (startBlock currentBlock : Nat) : List (Nat × Nat) :=
  reverseChunksF startBlock (reverseFuel currentBlock) currentBlock

/-! ### The service functions -/

/-- transaction-service.ts lines 84-135: `fetchEventsFromNetwork` before its
catch-all; any thrown exception surfaces as `error`. -/
def fetchEventsFromNetworkE (client : Client) (contractAddress : String)
    (network : NetworkConfig) (merchantAddress : Option String) :
    Except String (List TransactionEvent) :=
  match client.getBlockNumber with
  | .error e => .error e
  | .ok currentBlock =>
    let startBlock := network.deploymentStartBlock.getD 0
    match forwardLoopF client.getLogs contractAddress merchantAddress currentBlock
        (forwardFuel currentBlock) startBlock with
    | none => .error "fuel exhausted"
    | some (.error e) => .error e
    | some (.ok allEvents) => .ok (allEvents.map (decodeEvent network))

/-- transaction-service.ts lines 84-135 with the catch at lines 131-134:
a failed network degrades to the empty list. -/
def fetchEventsFromNetwork (client : Client) (contractAddress : String)
    (network : NetworkConfig) (merchantAddress : Option String) : List TransactionEvent :=
  match fetchEventsFromNetworkE client contractAddress network merchantAddress with
  | .ok evs => evs
  | .error _ => []

/-- transaction-service.ts lines 137-169: `fetchStableCoinPurchases` runs the
forward scan on the three configured networks and concatenates the results
in registration order (sepolia, ethereum-classic, mordor). The outer
try/catch of the source is unreachable because each per-network scan
already catches every exception. -/
def fetchStableCoinPurchases (sepoliaClient etcClient mordorClient : Client)
    (sepoliaAddr etcAddr mordorAddr : String)
    (sepoliaCfg etcCfg mordorCfg : NetworkConfig)
    (merchantAddress : Option String) : List TransactionEvent :=
  fetchEventsFromNetwork sepoliaClient sepoliaAddr sepoliaCfg merchantAddress ++
    fetchEventsFromNetwork etcClient etcAddr etcCfg merchantAddress ++
    fetchEventsFromNetwork mordorClient mordorAddr mordorCfg merchantAddress

/-- transaction-service.ts lines 171-179: `getBlockTimestamp` returns
`new Date(Number(block.timestamp) * 1000)` and substitutes the current
wall-clock time `now` when the lookup throws. -/
def getBlockTimestamp (client : Client) (now : Nat) (blockNumber : Nat) : Nat :=
  match client.getBlock blockNumber with
  | .ok ts => ts * 1000
  | .error _ => now

/-- JS `[...new Set(l)]`: deduplicate keeping first occurrences in order. -/
def dedupFirst : List Nat → List Nat
  | [] => []
  | x :: xs => x :: dedupFirst (xs.filter (fun y => y != x))
termination_by l => l.length
decreasing_by
  simp only [List.length_cons]
  exact Nat.lt_succ_of_le (List.length_filter_le _ _)

/-- transaction-service.ts lines 181-198: `attachTimestamps` resolves the
distinct block numbers (the batching in groups of 20 concurrent lookups
does not affect the resulting map) and re-attaches them through a
block-number → timestamp map; a missing map entry would leave the
timestamp unset, exactly like `Map.get` returning `undefined`. -/
def attachTimestamps (client : Client) (now : Nat) (events : List TransactionEvent) :
    List TransactionEvent :=
  let uniqueBlocks := dedupFirst (events.map (fun e => e.blockNumber))
  let blockTimestamps := uniqueBlocks.map (fun bn => (bn, getBlockTimestamp client now bn))
  events.map (fun e => { e with timestamp := blockTimestamps.lookup e.blockNumber })

/-- transaction-service.ts lines 200-272: `fetchEventsFromNetworkReverse`
before its catch-all. `limit = none` models `"all"`. After the loop the
collected raw logs are sorted descending by block number, truncated to
`limit` when numeric, decoded, and given timestamps. -/
def fetchEventsFromNetworkReverseE (client : Client) (contractAddress : String)
    (network : NetworkConfig) (now : Nat) (limit : Option Nat)
    (merchantAddress : Option String) : Except String (List TransactionEvent) :=
  match client.getBlockNumber with
  | .error e => .error e
  | .ok currentBlock =>
    let startBlock := network.deploymentStartBlock.getD 0
    match reverseLoopF client.getLogs contractAddress merchantAddress startBlock limit
        (reverseFuel currentBlock) currentBlock [] with
    | none => .error "fuel exhausted"
    | some (.error e) => .error e
    | some (.ok collectedEvents) =>
      let sorted := jsSort blockNumberCmp collectedEvents
      let truncated :=
        match limit with
        | some n => sorted.take n
        | none => sorted
      let mappedEvents := truncated.map (decodeEvent network)
      .ok (attachTimestamps client now mappedEvents)

/-- transaction-service.ts lines 200-272 with the catch at lines 268-271. -/
def fetchEventsFromNetworkReverse (client : Client) (contractAddress : String)
    (network : NetworkConfig) (now : Nat) (limit : Option Nat)
    (merchantAddress : Option String) : List TransactionEvent :=
  match fetchEventsFromNetworkReverseE client contractAddress network now limit
      merchantAddress with
  | .ok evs => evs
  | .error _ => []

/-- transaction-service.ts lines 274-303: `fetchTransactionsForExport` runs
the reverse scan on the three networks, concatenates, sorts by the
timestamp comparator and applies the global limit. -/
def fetchTransactionsForExport (sepoliaClient etcClient mordorClient : Client)
    (sepoliaAddr etcAddr mordorAddr : String)
    (sepoliaCfg etcCfg mordorCfg : NetworkConfig)
    (now : Nat) (limit : Option Nat) (merchantAddress : Option String) :
    List TransactionEvent :=
  let allEvents :=
    fetchEventsFromNetworkReverse sepoliaClient sepoliaAddr sepoliaCfg now limit
        merchantAddress ++
      fetchEventsFromNetworkReverse etcClient etcAddr etcCfg now limit merchantAddress ++
      fetchEventsFromNetworkReverse mordorClient mordorAddr mordorCfg now limit
        merchantAddress
  let sorted := jsSort exportCmp allEvents
  match limit with
  | some n => sorted.take n
  | none => sorted

/-! ### Specification-side helper definitions -/

/-- Forget the timestamp; used to state frame conditions. -/
def withoutTimestamp (e : TransactionEvent) : TransactionEvent :=
  { e with timestamp := none }

/-- The ground-truth logs of a chain restricted to an inclusive block range,
in ledger order. -/
def logsInRange (ledger : List RawLog) (fromBlock toBlock : Nat) : List RawLog :=
  ledger.filter (fun e => fromBlock ≤ e.blockNumber && e.blockNumber ≤ toBlock)

/-- A log oracle is coherent with a ledger when every range query returns
exactly the ledger entries inside the range. -/
def CoherentLogs (client : Client) (address : String) (merchant : Option String)
    (ledger : List RawLog) : Prop :=
  ∀ fromBlock toBlock, client.getLogs address merchant fromBlock toBlock =
    Except.ok (logsInRange ledger fromBlock toBlock)

/-- Concatenation of per-chunk query results over a list of chunks. -/
def chunkConcat {α : Type} (F : Nat → Nat → List α) : List (Nat × Nat) → List α
  | [] => []
  | ch :: chs => F ch.1 ch.2 ++ chunkConcat F chs

end StablePay

namespace StablePay

/-! ### Fuel sufficiency: both scan loops terminate -/

theorem forwardLoopF_isSome {α : Type}
    (getLogs : String → Option String → Nat → Nat → Except String (List α))
    (address : String) (merchant : Option String) (currentBlock : Nat) :
    ∀ fuel fromBlock, currentBlock + 1 ≤ fromBlock + 50000 * fuel →
      (forwardLoopF getLogs address merchant currentBlock fuel fromBlock).isSome := by
  intro fuel
  induction fuel with
  | zero =>
    intro fromBlock h
    rw [forwardLoopF]
    have hgt : ¬ fromBlock ≤ currentBlock := by omega
    simp [hgt]
  | succ fuel ih =>
    intro fromBlock h
    rw [forwardLoopF]
    split
    case isTrue hle =>
      dsimp only
      cases hg : getLogs address merchant fromBlock
          (if currentBlock < fromBlock + 49999 then currentBlock else fromBlock + 49999) with
      | error e => simp
      | ok evs =>
        dsimp only
        have hrec := ih ((if currentBlock < fromBlock + 49999 then currentBlock
            else fromBlock + 49999) + 1) (by split <;> omega)
        cases hres : forwardLoopF getLogs address merchant currentBlock fuel
            ((if currentBlock < fromBlock + 49999 then currentBlock
              else fromBlock + 49999) + 1) with
        | none => rw [hres] at hrec; simp at hrec
        | some r => cases r <;> simp
    case isFalse hgt => simp

theorem reverseLoopF_isSome {α : Type}
    (getLogs : String → Option String → Nat → Nat → Except String (List α))
    (address : String) (merchant : Option String) (startBlock : Nat) (limit : Option Nat) :
    ∀ fuel toBlock acc, toBlock ≤ startBlock + 50000 + 50001 * fuel →
      (reverseLoopF getLogs address merchant startBlock limit fuel toBlock acc).isSome := by
  intro fuel
  induction fuel with
  | zero =>
    intro toBlock acc h
    rw [reverseLoopF]
    by_cases hlt : toBlock < startBlock
    · simp [hlt]
    · have hc : toBlock - 50000 ≤ startBlock := by omega
      simp only [if_neg hlt]
      cases hg : getLogs address merchant
          (if toBlock - 50000 < startBlock then startBlock else toBlock - 50000) toBlock with
      | error e => simp
      | ok evs =>
        dsimp only
        by_cases hl : limitHit limit (acc.length + evs.length)
        · simp [hl]
        · have hfs : (if toBlock - 50000 < startBlock then startBlock
              else toBlock - 50000) ≤ startBlock := by split <;> omega
          simp [hl, hfs]
  | succ fuel ih =>
    intro toBlock acc h
    rw [reverseLoopF]
    by_cases hlt : toBlock < startBlock
    · simp [hlt]
    · simp only [if_neg hlt]
      cases hg : getLogs address merchant
          (if toBlock - 50000 < startBlock then startBlock else toBlock - 50000) toBlock with
      | error e => simp
      | ok evs =>
        dsimp only
        by_cases hl : limitHit limit (acc.length + evs.length)
        · simp [hl]
        · by_cases hfs : (if toBlock - 50000 < startBlock then startBlock
              else toBlock - 50000) ≤ startBlock
          · simp [hl, hfs]
          · have hc : ¬ toBlock - 50000 < startBlock := by
              intro hcon
              exact hfs (by simp [hcon])
            simp only [if_neg hc] at hfs ⊢
            simp only [List.length_append, hl, if_false, if_neg hfs]
            exact ih (toBlock - 50000 - 1) _ (by omega)

theorem forwardFuel_sufficient (startBlock currentBlock : Nat) :
    currentBlock + 1 ≤ startBlock + 50000 * forwardFuel currentBlock := by
  have h := Nat.div_add_mod currentBlock 50000
  have h2 : currentBlock % 50000 < 50000 := Nat.mod_lt currentBlock (by omega)
  unfold forwardFuel
  omega

theorem reverseFuel_sufficient (startBlock currentBlock : Nat) :
    currentBlock ≤ startBlock + 50000 + 50001 * reverseFuel currentBlock := by
  have h := Nat.div_add_mod currentBlock 50001
  have h2 : currentBlock % 50001 < 50001 := Nat.mod_lt currentBlock (by omega)
  unfold reverseFuel
  omega

/-! ### Loop characterization against an error-free range oracle -/

theorem chunkConcat_pairs : ∀ chs : List (Nat × Nat),
    chunkConcat (fun f t => [(f, t)]) chs = chs := by
  intro chs
  induction chs with
  | nil => rfl
  | cons ch chs ih => simp [chunkConcat, ih]

theorem forwardLoopF_char {α : Type}
    (getLogs : String → Option String → Nat → Nat → Except String (List α))
    (address : String) (merchant : Option String) (currentBlock : Nat)
    (F : Nat → Nat → List α)
    (hF : ∀ f t, getLogs address merchant f t = Except.ok (F f t)) :
    ∀ fuel fromBlock, currentBlock + 1 ≤ fromBlock + 50000 * fuel →
      forwardLoopF getLogs address merchant currentBlock fuel fromBlock =
        some (Except.ok (chunkConcat F (forwardChunksF currentBlock fuel fromBlock))) := by
  intro fuel
  induction fuel with
  | zero =>
    intro fromBlock h
    rw [forwardLoopF, forwardChunksF]
    have hgt : ¬ fromBlock ≤ currentBlock := by omega
    simp [hgt, chunkConcat]
  | succ fuel ih =>
    intro fromBlock h
    rw [forwardLoopF, forwardChunksF]
    by_cases hle : fromBlock ≤ currentBlock
    · simp only [if_pos hle]
      rw [hF]
      dsimp only
      rw [ih ((if currentBlock < fromBlock + 49999 then currentBlock
          else fromBlock + 49999) + 1) (by split <;> omega)]
      simp [chunkConcat]
    · simp [hle, chunkConcat]

theorem reverseLoopF_char {α : Type}
    (getLogs : String → Option String → Nat → Nat → Except String (List α))
    (address : String) (merchant : Option String) (startBlock : Nat)
    (F : Nat → Nat → List α)
    (hF : ∀ f t, getLogs address merchant f t = Except.ok (F f t)) :
    ∀ fuel toBlock acc, toBlock ≤ startBlock + 50000 + 50001 * fuel →
      reverseLoopF getLogs address merchant startBlock none fuel toBlock acc =
        some (Except.ok (acc ++ chunkConcat F (reverseChunksF startBlock fuel toBlock))) := by
  intro fuel
  induction fuel with
  | zero =>
    intro toBlock acc h
    rw [reverseLoopF, reverseChunksF]
    by_cases hlt : toBlock < startBlock
    · simp [hlt, chunkConcat]
    · simp only [if_neg hlt]
      rw [hF]
      have hfs : (if toBlock - 50000 < startBlock then startBlock
          else toBlock - 50000) ≤ startBlock := by split <;> omega
      simp [limitHit, hfs, chunkConcat]
  | succ fuel ih =>
    intro toBlock acc h
    rw [reverseLoopF, reverseChunksF]
    by_cases hlt : toBlock < startBlock
    · simp [hlt, chunkConcat]
    · simp only [if_neg hlt]
      rw [hF]
      by_cases hfs : (if toBlock - 50000 < startBlock then startBlock
          else toBlock - 50000) ≤ startBlock
      · simp [limitHit, hfs, chunkConcat]
      · have hc : ¬ toBlock - 50000 < startBlock := by
          intro hcon
          exact hfs (by simp [hcon])
        simp only [if_neg hc] at hfs ⊢
        simp only [limitHit, if_neg hfs, dite_eq_ite, if_false]
        rw [ih (toBlock - 50000 - 1) _ (by omega)]
        simp [chunkConcat, chunkConcat_pairs]

theorem reverseLoopF_ok {α : Type}
    (getLogs : String → Option String → Nat → Nat → Except String (List α))
    (address : String) (merchant : Option String) (startBlock : Nat) (limit : Option Nat)
    (hok : ∀ f t, ∃ l, getLogs address merchant f t = Except.ok l) :
    ∀ fuel toBlock acc, toBlock ≤ startBlock + 50000 + 50001 * fuel →
      ∃ out, reverseLoopF getLogs address merchant startBlock limit fuel toBlock acc =
        some (Except.ok out) := by
  intro fuel
  induction fuel with
  | zero =>
    intro toBlock acc h
    rw [reverseLoopF]
    by_cases hlt : toBlock < startBlock
    · exact ⟨acc, by simp [hlt]⟩
    · obtain ⟨evs, hg⟩ := hok (if toBlock - 50000 < startBlock then startBlock
        else toBlock - 50000) toBlock
      simp only [if_neg hlt]
      rw [hg]
      by_cases hl : limitHit limit (acc.length + evs.length)
      · exact ⟨acc ++ evs, by simp [hl]⟩
      · have hfs : (if toBlock - 50000 < startBlock then startBlock
            else toBlock - 50000) ≤ startBlock := by split <;> omega
        exact ⟨acc ++ evs, by simp [hl, hfs]⟩
  | succ fuel ih =>
    intro toBlock acc h
    rw [reverseLoopF]
    by_cases hlt : toBlock < startBlock
    · exact ⟨acc, by simp [hlt]⟩
    · obtain ⟨evs, hg⟩ := hok (if toBlock - 50000 < startBlock then startBlock
        else toBlock - 50000) toBlock
      simp only [if_neg hlt]
      rw [hg]
      by_cases hl : limitHit limit (acc.length + evs.length)
      · exact ⟨acc ++ evs, by simp [hl]⟩
      · by_cases hfs : (if toBlock - 50000 < startBlock then startBlock
            else toBlock - 50000) ≤ startBlock
        · exact ⟨acc ++ evs, by simp [hl, hfs]⟩
        · have hc : ¬ toBlock - 50000 < startBlock := by
            intro hcon
            exact hfs (by simp [hcon])
          simp only [if_neg hc] at hfs ⊢
          obtain ⟨out, hout⟩ := ih (toBlock - 50000 - 1) (acc ++ evs) (by omega)
          refine ⟨out, ?_⟩
          simp only [List.length_append, hl, if_false, if_neg hfs]
          exact hout

/-! ### Exact range coverage of the chunk sequences -/

theorem forwardChunksF_cover (currentBlock : Nat) :
    ∀ fuel fromBlock b, currentBlock + 1 ≤ fromBlock + 50000 * fuel →
      (forwardChunksF currentBlock fuel fromBlock).countP
          (fun ch => ch.1 ≤ b && b ≤ ch.2) =
        if fromBlock ≤ b ∧ b ≤ currentBlock then 1 else 0 := by
  intro fuel
  induction fuel with
  | zero =>
    intro fromBlock b h
    rw [forwardChunksF]
    have hgt : ¬ fromBlock ≤ currentBlock := by omega
    simp only [if_neg hgt, List.countP_nil]
    have hnot : ¬ (fromBlock ≤ b ∧ b ≤ currentBlock) := by omega
    simp [hnot]
  | succ fuel ih =>
    intro fromBlock b h
    rw [forwardChunksF]
    by_cases hle : fromBlock ≤ currentBlock
    · simp only [if_pos hle]
      rw [List.countP_cons]
      rw [ih ((if currentBlock < fromBlock + 49999 then currentBlock
          else fromBlock + 49999) + 1) b (by split <;> omega)]
      simp only [decide_eq_true_eq, Bool.and_eq_true]
      split_ifs <;> omega
    · simp only [if_neg hle, List.countP_nil]
      have hnot : ¬ (fromBlock ≤ b ∧ b ≤ currentBlock) := by omega
      simp [hnot]

theorem reverseChunksF_cover (startBlock : Nat) :
    ∀ fuel toBlock b, toBlock ≤ startBlock + 50000 + 50001 * fuel →
      (reverseChunksF startBlock fuel toBlock).countP
          (fun ch => ch.1 ≤ b && b ≤ ch.2) =
        if startBlock ≤ b ∧ b ≤ toBlock then 1 else 0 := by
  intro fuel
  induction fuel with
  | zero =>
    intro toBlock b h
    rw [reverseChunksF]
    by_cases hlt : toBlock < startBlock
    · simp only [if_pos hlt, List.countP_nil]
      have hnot : ¬ (startBlock ≤ b ∧ b ≤ toBlock) := by omega
      simp [hnot]
    · simp only [if_neg hlt]
      have hfs : (if toBlock - 50000 < startBlock then startBlock
          else toBlock - 50000) ≤ startBlock := by split <;> omega
      simp only [if_pos hfs, List.countP_cons, List.countP_nil]
      simp only [decide_eq_true_eq, Bool.and_eq_true]
      split_ifs <;> omega
  | succ fuel ih =>
    intro toBlock b h
    rw [reverseChunksF]
    by_cases hlt : toBlock < startBlock
    · simp only [if_pos hlt, List.countP_nil]
      have hnot : ¬ (startBlock ≤ b ∧ b ≤ toBlock) := by omega
      simp [hnot]
    · simp only [if_neg hlt]
      by_cases hfs : (if toBlock - 50000 < startBlock then startBlock
          else toBlock - 50000) ≤ startBlock
      · simp only [if_pos hfs, List.countP_cons, List.countP_nil]
        by_cases hc2 : toBlock - 50000 < startBlock
        · simp only [if_pos hc2] at hfs ⊢
          simp only [decide_eq_true_eq, Bool.and_eq_true]
          split_ifs <;> omega
        · simp only [if_neg hc2] at hfs ⊢
          simp only [decide_eq_true_eq, Bool.and_eq_true]
          split_ifs <;> omega
      · have hc : ¬ toBlock - 50000 < startBlock := by
          intro hcon
          exact hfs (by simp [hcon])
        simp only [if_neg hc] at hfs ⊢
        simp only [if_neg hfs]
        rw [List.countP_cons]
        rw [ih (toBlock - 50000 - 1) b (by omega)]
        simp only [decide_eq_true_eq, Bool.and_eq_true]
        split_ifs <;> omega

theorem forwardChunks_cover (startBlock currentBlock b : Nat) :
    (forwardChunks startBlock currentBlock).countP
        (fun ch => ch.1 ≤ b && b ≤ ch.2) =
      if startBlock ≤ b ∧ b ≤ currentBlock then 1 else 0 :=
  forwardChunksF_cover currentBlock (forwardFuel currentBlock) startBlock b
    (forwardFuel_sufficient startBlock currentBlock)

theorem reverseChunks_cover (startBlock currentBlock b : Nat) :
    (reverseChunks startBlock currentBlock).countP
        (fun ch => ch.1 ≤ b && b ≤ ch.2) =
      if startBlock ≤ b ∧ b ≤ currentBlock then 1 else 0 :=
  reverseChunksF_cover startBlock (reverseFuel currentBlock) currentBlock b
    (reverseFuel_sufficient startBlock currentBlock)

/-! ### Properties of the modelled JS sort -/

theorem jsMerge_perm {α : Type} (le : α → α → Bool) :
    ∀ xs ys : List α, List.Perm (jsMerge le xs ys) (xs ++ ys) := by
  intro xs ys
  induction xs, ys using jsMerge.induct le with
  | case1 ys => simp [jsMerge]
  | case2 xs => simp [jsMerge]
  | case3 x xs y ys hle ih =>
    simp only [jsMerge, if_pos hle, List.cons_append]
    exact ih.cons x
  | case4 x xs y ys hle ih =>
    simp only [jsMerge, if_neg hle]
    exact (ih.cons y).trans List.perm_middle.symm

theorem jsMergeSortF_perm {α : Type} (le : α → α → Bool) :
    ∀ fuel l, l.length ≤ fuel + 1 → List.Perm (jsMergeSortF le fuel l) l := by
  intro fuel
  induction fuel with
  | zero =>
    intro l h
    rcases l with _ | ⟨a, _ | ⟨b, l'⟩⟩
    · simp [jsMergeSortF]
    · simp [jsMergeSortF]
    · simp at h
  | succ fuel ih =>
    intro l h
    rcases l with _ | ⟨a, _ | ⟨b, l'⟩⟩
    · simp [jsMergeSortF]
    · simp [jsMergeSortF]
    · have h1 : (List.take ((a :: b :: l').length / 2) (a :: b :: l')).length ≤ fuel + 1 := by
        simp only [List.length_take, List.length_drop, List.length_cons] at h ⊢
        omega
      have h2 : (List.drop ((a :: b :: l').length / 2) (a :: b :: l')).length ≤ fuel + 1 := by
        simp only [List.length_take, List.length_drop, List.length_cons] at h ⊢
        omega
      simp only [jsMergeSortF]
      refine ((jsMerge_perm le _ _).trans ?_)
      refine ((ih _ h1).append (ih _ h2)).trans ?_
      rw [List.take_append_drop]

theorem jsMerge_pairwise {α : Type} (le : α → α → Bool) (P : α → Prop)
    (htrans : ∀ a b c, P a → P b → P c → le a b = true → le b c = true → le a c = true)
    (htotal : ∀ a b, P a → P b → le a b = true ∨ le b a = true) :
    ∀ xs ys, (∀ x ∈ xs, P x) → (∀ y ∈ ys, P y) →
      List.Pairwise (fun a b => le a b = true) xs →
      List.Pairwise (fun a b => le a b = true) ys →
      List.Pairwise (fun a b => le a b = true) (jsMerge le xs ys) := by
  intro xs ys
  induction xs, ys using jsMerge.induct le with
  | case1 ys =>
    intro _ _ _ hyp
    simpa [jsMerge] using hyp
  | case2 xs =>
    intro _ _ hxp _
    simpa [jsMerge] using hxp
  | case3 x xs y ys hle ih =>
    intro hxs hys hxp hyp
    simp only [jsMerge, if_pos hle]
    refine List.pairwise_cons.2 ⟨?_, ?_⟩
    · intro z hz
      have hz2 : z ∈ xs ++ y :: ys := (jsMerge_perm le xs (y :: ys)).subset hz
      rcases List.mem_append.1 hz2 with hzx | hzy
      · exact (List.pairwise_cons.1 hxp).1 z hzx
      · cases hzy with
        | head =>
          exact hle
        | tail _ hzys =>
          exact htrans x y z (hxs x (List.mem_cons_self x xs)) (hys y (List.mem_cons_self y ys))
            (hys z (List.mem_cons_of_mem y hzys)) hle ((List.pairwise_cons.1 hyp).1 z hzys)
    · exact ih (fun u hu => hxs u (List.mem_cons_of_mem x hu)) hys
        (List.pairwise_cons.1 hxp).2 hyp
  | case4 x xs y ys hle ih =>
    intro hxs hys hxp hyp
    simp only [jsMerge, if_neg hle]
    have hyx : le y x = true := by
      rcases htotal x y (hxs x (List.mem_cons_self x xs)) (hys y (List.mem_cons_self y ys)) with
        h | h
      · exact absurd h hle
      · exact h
    refine List.pairwise_cons.2 ⟨?_, ?_⟩
    · intro z hz
      have hz2 : z ∈ (x :: xs) ++ ys := (jsMerge_perm le (x :: xs) ys).subset hz
      rcases List.mem_append.1 hz2 with hzx | hzy
      · cases hzx with
        | head =>
          exact hyx
        | tail _ hzxs =>
          exact htrans y x z (hys y (List.mem_cons_self y ys)) (hxs x (List.mem_cons_self x xs))
            (hxs z (List.mem_cons_of_mem x hzxs)) hyx ((List.pairwise_cons.1 hxp).1 z hzxs)
      · exact (List.pairwise_cons.1 hyp).1 z hzy
    · exact ih hxs (fun u hu => hys u (List.mem_cons_of_mem y hu)) hxp
        (List.pairwise_cons.1 hyp).2

theorem jsMergeSortF_pairwise {α : Type} (le : α → α → Bool) (P : α → Prop)
    (htrans : ∀ a b c, P a → P b → P c → le a b = true → le b c = true → le a c = true)
    (htotal : ∀ a b, P a → P b → le a b = true ∨ le b a = true) :
    ∀ fuel l, l.length ≤ fuel + 1 → (∀ x ∈ l, P x) →
      List.Pairwise (fun a b => le a b = true) (jsMergeSortF le fuel l) := by
  intro fuel
  induction fuel with
  | zero =>
    intro l h hP
    rcases l with _ | ⟨a, _ | ⟨b, l'⟩⟩
    · simp [jsMergeSortF]
    · simp [jsMergeSortF]
    · simp at h
  | succ fuel ih =>
    intro l h hP
    rcases l with _ | ⟨a, _ | ⟨b, l'⟩⟩
    · simp [jsMergeSortF]
    · simp [jsMergeSortF]
    · have h1 : (List.take ((a :: b :: l').length / 2) (a :: b :: l')).length ≤ fuel + 1 := by
        simp only [List.length_take, List.length_drop, List.length_cons] at h ⊢
        omega
      have h2 : (List.drop ((a :: b :: l').length / 2) (a :: b :: l')).length ≤ fuel + 1 := by
        simp only [List.length_take, List.length_drop, List.length_cons] at h ⊢
        omega
      have hP1 : ∀ x ∈ List.take ((a :: b :: l').length / 2) (a :: b :: l'), P x :=
        fun x hx => hP x (List.take_subset _ _ hx)
      have hP2 : ∀ x ∈ List.drop ((a :: b :: l').length / 2) (a :: b :: l'), P x :=
        fun x hx => hP x (List.drop_subset _ _ hx)
      simp only [jsMergeSortF]
      refine jsMerge_pairwise le P htrans htotal _ _ ?_ ?_ (ih _ h1 hP1) (ih _ h2 hP2)
      · exact fun x hx => hP1 x ((jsMergeSortF_perm le fuel _ h1).subset hx)
      · exact fun x hx => hP2 x ((jsMergeSortF_perm le fuel _ h2).subset hx)

theorem jsSort_perm {α : Type} (cmp : α → α → Int) (l : List α) :
    List.Perm (jsSort cmp l) l :=
  jsMergeSortF_perm _ l.length l (by omega)

theorem jsSort_pairwise {α : Type} (cmp : α → α → Int) (P : α → Prop)
    (htrans : ∀ a b c, P a → P b → P c → cmp a b ≤ 0 → cmp b c ≤ 0 → cmp a c ≤ 0)
    (htotal : ∀ a b, P a → P b → cmp a b ≤ 0 ∨ cmp b a ≤ 0)
    (l : List α) (hP : ∀ x ∈ l, P x) :
    List.Pairwise (fun a b => cmp a b ≤ 0) (jsSort cmp l) := by
  have hpw := jsMergeSortF_pairwise (fun a b => decide (cmp a b ≤ 0)) P
    (by
      intro a b c pa pb pc h1 h2
      simp only [decide_eq_true_eq] at h1 h2 ⊢
      exact htrans a b c pa pb pc h1 h2)
    (by
      intro a b pa pb
      rcases htotal a b pa pb with h | h
      · exact Or.inl (by simpa)
      · exact Or.inr (by simpa))
    l.length l (by omega) hP
  exact hpw.imp (by intro a b h; simpa using h)

/-! ### Timestamp resolver: characterization -/

theorem mem_dedupFirst : ∀ (l : List Nat) (b : Nat), b ∈ l → b ∈ dedupFirst l := by
  intro l
  induction l using dedupFirst.induct with
  | case1 =>
    intro b h
    cases h
  | case2 x xs ih =>
    intro b h
    rw [dedupFirst]
    rcases List.mem_cons.1 h with rfl | hb
    · exact List.mem_cons_self _ _
    · by_cases hbx : b = x
      · subst hbx
        exact List.mem_cons_self _ _
      · exact List.mem_cons_of_mem _ (ih b (List.mem_filter.2 ⟨hb, by simp [hbx]⟩))

theorem lookup_map_key (f : Nat → Nat) : ∀ (l : List Nat) (b : Nat), b ∈ l →
    List.lookup b (l.map fun bn => (bn, f bn)) = some (f b) := by
  intro l
  induction l with
  | nil =>
    intro b h
    cases h
  | cons x xs ih =>
    intro b h
    by_cases hbx : b = x
    · simp [List.lookup, hbx]
    · have hbeq : (b == x) = false := by simp [hbx]
      simp only [List.map_cons, List.lookup, hbeq]
      exact ih b (by
        cases h with
        | head => exact absurd rfl hbx
        | tail _ h2 => exact h2)

theorem attachTimestamps_eq_map (client : Client) (now : Nat)
    (events : List TransactionEvent) :
    attachTimestamps client now events =
      events.map (fun e =>
        { e with timestamp := some (getBlockTimestamp client now e.blockNumber) }) := by
  unfold attachTimestamps
  refine List.map_congr_left ?_
  intro e he
  have hmem : e.blockNumber ∈ dedupFirst (events.map (fun e => e.blockNumber)) :=
    mem_dedupFirst _ _ (List.mem_map_of_mem _ he)
  rw [lookup_map_key _ _ _ hmem]

theorem mem_attachTimestamps_isSome (client : Client) (now : Nat)
    (events : List TransactionEvent) (e : TransactionEvent)
    (he : e ∈ attachTimestamps client now events) : e.timestamp.isSome := by
  rw [attachTimestamps_eq_map] at he
  obtain ⟨e0, _, rfl⟩ := List.mem_map.1 he
  rfl

theorem fetchReverseE_ok_shape (client : Client) (contractAddress : String)
    (network : NetworkConfig) (now : Nat) (limit : Option Nat)
    (merchantAddress : Option String) (l : List TransactionEvent)
    (h : fetchEventsFromNetworkReverseE client contractAddress network now limit
        merchantAddress = Except.ok l) :
    ∃ mapped, l = attachTimestamps client now mapped := by
  unfold fetchEventsFromNetworkReverseE at h
  cases hbn : client.getBlockNumber with
  | error e =>
    rw [hbn] at h
    simp at h
  | ok currentBlock =>
    rw [hbn] at h
    dsimp only at h
    cases hloop : reverseLoopF client.getLogs contractAddress merchantAddress
        (network.deploymentStartBlock.getD 0) limit (reverseFuel currentBlock)
        currentBlock [] with
    | none =>
      rw [hloop] at h
      simp at h
    | some r =>
      rw [hloop] at h
      cases r with
      | error e =>
        simp at h
      | ok collectedEvents =>
        simp only [Except.ok.injEq] at h
        exact ⟨_, h.symm⟩

theorem mem_fetchReverse_isSome (client : Client) (contractAddress : String)
    (network : NetworkConfig) (now : Nat) (limit : Option Nat)
    (merchantAddress : Option String) (e : TransactionEvent)
    (he : e ∈ fetchEventsFromNetworkReverse client contractAddress network now limit
        merchantAddress) : e.timestamp.isSome := by
  unfold fetchEventsFromNetworkReverse at he
  cases hE : fetchEventsFromNetworkReverseE client contractAddress network now limit
      merchantAddress with
  | error msg =>
    rw [hE] at he
    simp at he
  | ok l =>
    rw [hE] at he
    obtain ⟨mapped, rfl⟩ := fetchReverseE_ok_shape client contractAddress network now limit
      merchantAddress l hE
    exact mem_attachTimestamps_isSome client now mapped e he

theorem forwardLoop_trace (address : String) (merchant : Option String)
    (startBlock currentBlock : Nat) :
    forwardLoopF (fun _ _ f t => Except.ok [(f, t)]) address merchant currentBlock
        (forwardFuel currentBlock) startBlock =
      some (Except.ok (forwardChunks startBlock currentBlock)) := by
  rw [forwardChunks, ← chunkConcat_pairs (forwardChunksF currentBlock
      (forwardFuel currentBlock) startBlock)]
  exact forwardLoopF_char (fun _ _ f t => Except.ok [(f, t)]) address merchant currentBlock
    (fun f t => [(f, t)]) (fun _ _ => rfl) _ _
    (forwardFuel_sufficient startBlock currentBlock)

theorem reverseLoop_trace (address : String) (merchant : Option String)
    (startBlock currentBlock : Nat) :
    reverseLoopF (fun _ _ f t => Except.ok [(f, t)]) address merchant startBlock none
        (reverseFuel currentBlock) currentBlock [] =
      some (Except.ok (reverseChunks startBlock currentBlock)) := by
  rw [reverseChunks, ← chunkConcat_pairs (reverseChunksF startBlock
      (reverseFuel currentBlock) currentBlock)]
  have h := reverseLoopF_char (fun _ _ f t => Except.ok [(f, t)]) address merchant startBlock
    (fun f t => [(f, t)]) (fun _ _ => rfl) (reverseFuel currentBlock) currentBlock []
    (reverseFuel_sufficient startBlock currentBlock)
  simpa using h

/-! ### Claim C2 -/

/-- C2: for every `deploymentStartBlock ≤ currentHeightAtStart`, a scan that runs
to completion (forward, or reverse with limit `"all"`) issues exactly the
inclusive block-range queries `forwardChunks` / `reverseChunks` (shown by running
the loops against a query-recording oracle), and those ranges cover
`[deploymentStartBlock, currentHeightAtStart]` exactly: every block of the
interval lies in exactly one queried range and blocks outside lie in none.
The forward chunks advance `fromBlock` to `toBlock + 1` with
`toBlock = min (fromBlock + 49999) current` by construction of `forwardChunksF`. -/
theorem C2_chunk_cover_exact (startBlock currentBlock : Nat)
    (_hle : startBlock ≤ currentBlock) :
    (∀ address merchant,
      forwardLoopF (fun _ _ f t => Except.ok [(f, t)]) address merchant currentBlock
          (forwardFuel currentBlock) startBlock =
        some (Except.ok (forwardChunks startBlock currentBlock)) ∧
      reverseLoopF (fun _ _ f t => Except.ok [(f, t)]) address merchant startBlock none
          (reverseFuel currentBlock) currentBlock [] =
        some (Except.ok (reverseChunks startBlock currentBlock))) ∧
    (∀ b, (forwardChunks startBlock currentBlock).countP
          (fun ch => ch.1 ≤ b && b ≤ ch.2) =
        if startBlock ≤ b ∧ b ≤ currentBlock then 1 else 0) ∧
    (∀ b, (reverseChunks startBlock currentBlock).countP
          (fun ch => ch.1 ≤ b && b ≤ ch.2) =
        if startBlock ≤ b ∧ b ≤ currentBlock then 1 else 0) :=
  ⟨fun address merchant =>
      ⟨forwardLoop_trace address merchant startBlock currentBlock,
        reverseLoop_trace address merchant startBlock currentBlock⟩,
    fun b => forwardChunks_cover startBlock currentBlock b,
    fun b => reverseChunks_cover startBlock currentBlock b⟩

/-- C2 witness: instantiation at `startBlock = 0`, `currentBlock = 50000`. -/
theorem C2_witness :
    (0 : Nat) ≤ 50000 ∧
    ((forwardChunks 0 50000).countP (fun ch => ch.1 ≤ 25000 && 25000 ≤ ch.2) = 1 ∧
      (reverseChunks 0 50000).countP (fun ch => ch.1 ≤ 25000 && 25000 ≤ ch.2) = 1) :=
  ⟨by omega,
    by
      have h1 := (C2_chunk_cover_exact 0 50000 (by omega)).2.1 25000
      have h2 := (C2_chunk_cover_exact 0 50000 (by omega)).2.2 25000
      constructor
      · simpa using h1
      · simpa using h2⟩

/-! ### Claim C10 -/

/-- C10: both scan loops terminate for every current height and deployment start
block: the default fuel (linear in the height) is always sufficient, because the
forward loop strictly increases `fromBlock` and the reverse loop strictly
decreases `toBlock` or breaks. -/
theorem C10_loops_terminate {α β : Type}
    (getLogsF : String → Option String → Nat → Nat → Except String (List α))
    (getLogsR : String → Option String → Nat → Nat → Except String (List β))
    (address : String) (merchant : Option String)
    (startBlock currentBlock : Nat) (limit : Option Nat) :
    (forwardLoopF getLogsF address merchant currentBlock (forwardFuel currentBlock)
        startBlock).isSome ∧
    (reverseLoopF getLogsR address merchant startBlock limit (reverseFuel currentBlock)
        currentBlock []).isSome :=
  ⟨forwardLoopF_isSome getLogsF address merchant currentBlock _ _
      (forwardFuel_sufficient startBlock currentBlock),
    reverseLoopF_isSome getLogsR address merchant startBlock limit _ _ []
      (reverseFuel_sufficient startBlock currentBlock)⟩

/-! ### Claim C7 -/

/-- C7: `attachTimestamps` never propagates a block-timestamp lookup failure: it
equals the direct per-event map attaching `getBlockTimestamp`, which yields the
wall-clock time `now` exactly when the per-block lookup throws and the scaled
block time on success; consequently every returned event carries a populated
timestamp and every other event of the batch is resolved normally. -/
theorem C7_attach_timestamps_fallback (client : Client) (now : Nat)
    (events : List TransactionEvent) :
    attachTimestamps client now events =
      events.map (fun e =>
        { e with timestamp := some (getBlockTimestamp client now e.blockNumber) }) ∧
    (∀ e ∈ attachTimestamps client now events, e.timestamp.isSome) ∧
    (∀ bn msg, client.getBlock bn = Except.error msg →
      getBlockTimestamp client now bn = now) ∧
    (∀ bn ts, client.getBlock bn = Except.ok ts →
      getBlockTimestamp client now bn = ts * 1000) :=
  ⟨attachTimestamps_eq_map client now events,
    fun e he => mem_attachTimestamps_isSome client now events e he,
    fun bn msg h => by unfold getBlockTimestamp; rw [h],
    fun bn ts h => by unfold getBlockTimestamp; rw [h]⟩

/-- A demonstration client whose block-0 timestamp lookup throws while block 1
succeeds with block time 5 seconds. -/
def demoTsClient : Client where
  getBlockNumber := Except.ok 0
  getLogs := fun _ _ _ _ => Except.ok []
  getBlock := fun bn => if bn = 0 then Except.error "rpc down" else Except.ok 5

/-- Two demonstration events referencing blocks 0 and 1. -/
def demoEvents : List TransactionEvent :=
  [{ buyer := "0xb1"
     receiver := "0xr1"
     amountSC := "1"
     amountBC := "2"
     blockNumber := 0
     transactionHash := "0xt1"
     timestamp := none
     chainId := 11155111
     networkName := "Sepolia" },
   { buyer := "0xb2"
     receiver := "0xr2"
     amountSC := "3"
     amountBC := "4"
     blockNumber := 1
     transactionHash := "0xt2"
     timestamp := none
     chainId := 61
     networkName := "Ethereum Classic" }]

/-- C7 witness: with the demonstration client, the failed block-0 lookup is
substituted by the wall clock 99, block 1 resolves to 5000 ms, and every
returned event has a populated timestamp. -/
theorem C7_witness :
    getBlockTimestamp demoTsClient 99 0 = 99 ∧
    getBlockTimestamp demoTsClient 99 1 = 5000 ∧
    ∀ e ∈ attachTimestamps demoTsClient 99 demoEvents, e.timestamp.isSome :=
  ⟨(C7_attach_timestamps_fallback demoTsClient 99 demoEvents).2.2.1 0 "rpc down" rfl,
    (C7_attach_timestamps_fallback demoTsClient 99 demoEvents).2.2.2 1 5 rfl,
    (C7_attach_timestamps_fallback demoTsClient 99 demoEvents).2.1⟩

/-! ### Claim C9 -/

/-- C9: the timestamp resolver is a frame: the returned list has the same length
and order, and every field other than `timestamp` (buyer, receiver, amountSC,
amountBC, blockNumber, transactionHash, chainId, networkName) is unchanged, as
witnessed by equality after erasing timestamps on both sides. -/
theorem C9_attach_frame (client : Client) (now : Nat)
    (events : List TransactionEvent) :
    (attachTimestamps client now events).length = events.length ∧
    (attachTimestamps client now events).map withoutTimestamp =
      events.map withoutTimestamp := by
  rw [attachTimestamps_eq_map]
  refine ⟨by simp, ?_⟩
  rw [List.map_map]
  refine List.map_congr_left ?_
  intro e _
  cases e
  rfl

/-! ### Claim C8 (corrected): chunk width bounds -/

theorem forwardChunksF_width (currentBlock : Nat) :
    ∀ fuel fromBlock ch, ch ∈ forwardChunksF currentBlock fuel fromBlock →
      ch.2 + 1 - ch.1 ≤ 50000 := by
  intro fuel
  induction fuel with
  | zero =>
    intro fromBlock ch hch
    rw [forwardChunksF] at hch
    by_cases hle : fromBlock ≤ currentBlock
    · simp only [if_pos hle] at hch
      rcases List.mem_cons.1 hch with rfl | h2
      · dsimp only
        split <;> omega
      · cases h2
    · simp [hle] at hch
  | succ fuel ih =>
    intro fromBlock ch hch
    rw [forwardChunksF] at hch
    by_cases hle : fromBlock ≤ currentBlock
    · simp only [if_pos hle] at hch
      rcases List.mem_cons.1 hch with rfl | h2
      · dsimp only
        split <;> omega
      · exact ih _ ch h2
    · simp [hle] at hch

theorem reverseChunksF_width (startBlock : Nat) :
    ∀ fuel toBlock ch, ch ∈ reverseChunksF startBlock fuel toBlock →
      ch.2 + 1 - ch.1 ≤ 50001 := by
  intro fuel
  induction fuel with
  | zero =>
    intro toBlock ch hch
    rw [reverseChunksF] at hch
    by_cases hlt : toBlock < startBlock
    · simp [hlt] at hch
    · simp only [if_neg hlt] at hch
      rcases List.mem_cons.1 hch with rfl | h2
      · dsimp only
        split <;> omega
      · by_cases hfs : (if toBlock - 50000 < startBlock then startBlock
            else toBlock - 50000) ≤ startBlock
        · simp [hfs] at h2
        · simp [hfs] at h2
  | succ fuel ih =>
    intro toBlock ch hch
    rw [reverseChunksF] at hch
    by_cases hlt : toBlock < startBlock
    · simp [hlt] at hch
    · simp only [if_neg hlt] at hch
      rcases List.mem_cons.1 hch with rfl | h2
      · dsimp only
        split <;> omega
      · by_cases hfs : (if toBlock - 50000 < startBlock then startBlock
            else toBlock - 50000) ≤ startBlock
        · simp [hfs] at h2
        · simp only [if_neg hfs] at h2
          exact ih _ ch h2

/-- C8 counterexample: with deployment block 0 and height 50000, the reverse
scanner issues the single query `[0, 50000]` — also produced by the reverse
loop itself against a query-recording oracle — an inclusive window of 50001
blocks, which exceeds the claimed bound of 50000. -/
theorem C8_counterexample :
    reverseChunks 0 50000 = [(0, 50000)] ∧
    reverseLoopF (fun _ _ f t => Except.ok [(f, t)]) "0xc" none 0 none
        (reverseFuel 50000) 50000 [] = some (Except.ok [(0, 50000)]) ∧
    50000 + 1 - 0 = 50001 ∧ ¬ (50000 + 1 - 0 ≤ 50000) :=
  ⟨by decide,
    by rw [reverseLoop_trace, show reverseChunks 0 50000 = [(0, 50000)] from by decide],
    by decide, by decide⟩

/-- C8 amended: every forward-scanner query spans at most 50000 blocks
(`maxBlockRange = 49999` plus the inclusive bounds), while every
reverse-scanner query spans at most 50001 blocks, because the reverse chunk
constant is 50000 and both bounds are inclusive. -/
theorem C8_chunk_width_bounds (startBlock currentBlock : Nat) :
    (∀ ch ∈ forwardChunks startBlock currentBlock, ch.2 + 1 - ch.1 ≤ 50000) ∧
    (∀ ch ∈ reverseChunks startBlock currentBlock, ch.2 + 1 - ch.1 ≤ 50001) :=
  ⟨fun ch hch => forwardChunksF_width currentBlock _ _ ch hch,
    fun ch hch => reverseChunksF_width startBlock _ _ ch hch⟩

/-- C8 witness: concrete widths of the first forward and reverse chunks when
scanning `[0, 150000]`. -/
theorem C8_witness :
    (0, 49999).2 + 1 - (0, 49999).1 ≤ 50000 ∧
    (100000, 150000).2 + 1 - (100000, 150000).1 ≤ 50001 :=
  ⟨(C8_chunk_width_bounds 0 150000).1 (0, 49999) (by decide),
    (C8_chunk_width_bounds 0 150000).2 (100000, 150000) (by decide)⟩

/-! ### Claim C5 (corrected): address normalization preserves case -/

/-- C5 counterexample: on the mixed-case topic of the claim, `formatAddress`
returns the low 20 bytes with their original case — the source never
lowercases — so the claimed all-lowercase receiver is not produced. -/
theorem C5_counterexample :
    formatAddress "0x000000000000000000000000AbCdEf0123456789abcdef0123456789abcdef01" =
      "0xAbCdEf0123456789abcdef0123456789abcdef01" ∧
    formatAddress "0x000000000000000000000000AbCdEf0123456789abcdef0123456789abcdef01" ≠
      "0xabcdef0123456789abcdef0123456789abcdef01" :=
  ⟨by decide, by decide⟩

/-- C5 amended: for every 32-byte topic value (64 hex characters after the
`0x` prefix), `formatAddress` returns the low 20 bytes — the last 40
characters — with a `0x` prefix, preserving the case of the input characters
(lowercase output only for lowercase input; no case normalization is
performed); the decoder indeed applies `formatAddress` to `topics[1]` and
`topics[2]` for buyer and receiver. -/
theorem C5_format_address_low20 (t : List Char) (h : t.length = 64) :
    formatAddress (String.mk ('0' :: 'x' :: t)) = String.mk ('0' :: 'x' :: t.drop 24) ∧
    (∀ network event, (decodeEvent network event).buyer =
        formatAddress (event.topics.getD 1 "") ∧
      (decodeEvent network event).receiver = formatAddress (event.topics.getD 2 "")) := by
  constructor
  · show String.mk ('0' :: 'x' :: sliceLast40 (replace0xOnce ('0' :: 'x' :: t))) = _
    have h1 : replace0xOnce ('0' :: 'x' :: t) = t := rfl
    rw [h1]
    unfold sliceLast40
    rw [h]
  · intro network event
    exact ⟨rfl, rfl⟩

/-- C5 witness: the amended theorem applied to the mixed-case claim topic. -/
theorem C5_witness :
    ("000000000000000000000000AbCdEf0123456789abcdef0123456789abcdef01" :
        String).data.length = 64 ∧
    formatAddress (String.mk ('0' :: 'x' ::
        ("000000000000000000000000AbCdEf0123456789abcdef0123456789abcdef01" :
          String).data)) =
      String.mk ('0' :: 'x' ::
        (("000000000000000000000000AbCdEf0123456789abcdef0123456789abcdef01" :
          String).data.drop 24)) :=
  ⟨by decide, (C5_format_address_low20 _ (by decide)).1⟩

/-! ### Claim C6: exact fixed-point amount formatting -/

theorem digitChar_isDigit (m : Nat) (h : m < 10) : (Nat.digitChar m).isDigit = true := by
  interval_cases m <;> rfl

theorem toDigitsCore_digits : ∀ (fuel n : Nat) (ds : List Char),
    (∀ c ∈ ds, c.isDigit = true) →
    ∀ c ∈ Nat.toDigitsCore 10 fuel n ds, c.isDigit = true := by
  intro fuel
  induction fuel with
  | zero =>
    intro n ds hds c hc
    simp only [Nat.toDigitsCore] at hc
    exact hds c hc
  | succ fuel ih =>
    intro n ds hds c hc
    simp only [Nat.toDigitsCore] at hc
    have hcons : ∀ x ∈ Nat.digitChar (n % 10) :: ds, x.isDigit = true := by
      intro x hx
      rcases List.mem_cons.1 hx with rfl | hx2
      · exact digitChar_isDigit _ (Nat.mod_lt n (by omega))
      · exact hds x hx2
    by_cases hz : n / 10 = 0
    · rw [if_pos hz] at hc
      exact hcons c hc
    · rw [if_neg hz] at hc
      exact ih _ _ hcons c hc

theorem repr_digits (value : Nat) : ∀ c ∈ (Nat.repr value).data, c.isDigit = true := by
  intro c hc
  have hrepr : (Nat.repr value).data = Nat.toDigits 10 value := rfl
  rw [hrepr, Nat.toDigits] at hc
  exact toDigitsCore_digits _ _ _ (by intro x hx; cases hx) c hc

theorem digit_ne_dot {c : Char} (h : c.isDigit = true) : (c == '.') = false := by
  cases hbe : c == '.'
  · rfl
  · have hc : c = '.' := by simpa using hbe
    subst hc
    exact absurd h (by decide)

theorem countP_dot_zero (l : List Char) (h : ∀ c ∈ l, c.isDigit = true) :
    l.countP (fun c => c == '.') = 0 :=
  List.countP_eq_zero.2 (fun c hc => by simp [digit_ne_dot (h c hc)])

/-- The padded digit string a formatted amount is assembled from. -/
def fuDisplay (value decimals : Nat) : List Char :=
  List.replicate (decimals - (Nat.repr value).data.length) '0' ++ (Nat.repr value).data

/-- Integer-part characters of a formatted amount. -/
def fuInt (value decimals : Nat) : List Char :=
  (fuDisplay value decimals).take ((fuDisplay value decimals).length - decimals)

/-- Fraction-part characters of a formatted amount, trailing zeros trimmed. -/
def fuFrac (value decimals : Nat) : List Char :=
  (((fuDisplay value decimals).drop ((fuDisplay value decimals).length - decimals)).reverse.dropWhile
    (fun c => c == '0')).reverse

theorem formatUnits_eq (value decimals : Nat) :
    formatUnits value decimals =
      (if (fuInt value decimals).length = 0 then "0" else String.mk (fuInt value decimals)) ++
        (if (fuFrac value decimals).length = 0 then ""
         else "." ++ String.mk (fuFrac value decimals)) := rfl

theorem fuDisplay_digits (value decimals : Nat) :
    ∀ c ∈ fuDisplay value decimals, c.isDigit = true := by
  intro c hc
  rcases List.mem_append.1 hc with h | h
  · rw [List.eq_of_mem_replicate h]
    rfl
  · exact repr_digits value c h

theorem fuInt_digits (value decimals : Nat) :
    ∀ c ∈ fuInt value decimals, c.isDigit = true :=
  fun c hc => fuDisplay_digits value decimals c (List.take_subset _ _ hc)

theorem fuFrac_digits (value decimals : Nat) :
    ∀ c ∈ fuFrac value decimals, c.isDigit = true := by
  intro c hc
  rw [fuFrac, List.mem_reverse] at hc
  have hc2 := (List.dropWhile_sublist _).subset hc
  rw [List.mem_reverse] at hc2
  exact fuDisplay_digits value decimals c (List.drop_subset _ _ hc2)

/-- Decomposition of a formatted amount: a nonempty all-digit integer part
followed by either nothing or a dot and an all-digit fraction part. -/
theorem formatUnits_decomp (value decimals : Nat) :
    ∃ intPart fracPart : List Char,
      (formatUnits value decimals).data = intPart ++ fracPart ∧
      intPart ≠ [] ∧
      (∀ c ∈ intPart, c.isDigit = true) ∧
      (fracPart = [] ∨ ∃ fr, fracPart = '.' :: fr ∧ ∀ c ∈ fr, c.isDigit = true) := by
  rw [formatUnits_eq]
  have hzero : ∀ c ∈ ['0'], c.isDigit = true := by
    intro c hc
    rcases List.mem_cons.1 hc with rfl | h
    · rfl
    · cases h
  by_cases hIlen : (fuInt value decimals).length = 0
  · by_cases hFlen : (fuFrac value decimals).length = 0
    · exact ⟨['0'], [], by simp [hIlen, hFlen, String.data_append], by simp, hzero, Or.inl rfl⟩
    · exact ⟨['0'], '.' :: fuFrac value decimals,
        by simp [hIlen, hFlen, String.data_append], by simp, hzero,
        Or.inr ⟨fuFrac value decimals, rfl, fuFrac_digits value decimals⟩⟩
  · by_cases hFlen : (fuFrac value decimals).length = 0
    · exact ⟨fuInt value decimals, [],
        by simp [hIlen, hFlen, String.data_append],
        fun hnil => hIlen (by simp [hnil]), fuInt_digits value decimals, Or.inl rfl⟩
    · exact ⟨fuInt value decimals, '.' :: fuFrac value decimals,
        by simp [hIlen, hFlen, String.data_append],
        fun hnil => hIlen (by simp [hnil]), fuInt_digits value decimals,
        Or.inr ⟨fuFrac value decimals, rfl, fuFrac_digits value decimals⟩⟩

/-- C6: decoding the stable-coin amount applies exact 6-decimal fixed-point
formatting (`formatUnits _ 6`) to the 256-bit integer parsed from the first 32
bytes of the data field, and 18 decimals to the second word; raw 123456789
formats to "123.456789" and raw 0 to "0"; and for every value the output is
plain decimal — only digit characters and at most one dot, hence no scientific
notation and no sign. -/
theorem C6_amount_decoding (network : NetworkConfig) (event : RawLog) :
    (decodeEvent network event).amountSC =
      formatUnits (bigIntOfHex ("0x" ++ String.mk ((event.data.data.drop 2).take 64))) 6 ∧
    (decodeEvent network event).amountBC =
      formatUnits (bigIntOfHex ("0x" ++ String.mk ((event.data.data.drop 2).drop 64))) 18 ∧
    formatUnits 123456789 6 = "123.456789" ∧
    formatUnits 0 6 = "0" ∧
    (∀ value decimals : Nat,
      (∀ c ∈ (formatUnits value decimals).data, c.isDigit = true ∨ c = '.') ∧
      (formatUnits value decimals).data.countP (fun c => c == '.') ≤ 1) := by
  refine ⟨rfl, rfl, by decide, by decide, ?_⟩
  intro value decimals
  obtain ⟨intPart, fracPart, heq, hne, hint, hfrac⟩ := formatUnits_decomp value decimals
  constructor
  · intro c hc
    rw [heq] at hc
    rcases List.mem_append.1 hc with h | h
    · exact Or.inl (hint c h)
    · rcases hfrac with rfl | ⟨fr, rfl, hfr⟩
      · cases h
      · rcases List.mem_cons.1 h with rfl | h2
        · exact Or.inr rfl
        · exact Or.inl (hfr c h2)
  · rw [heq, List.countP_append, countP_dot_zero intPart hint]
    rcases hfrac with rfl | ⟨fr, rfl, hfr⟩
    · simp
    · rw [List.countP_cons, countP_dot_zero fr hfr]
      simp

/-- A demonstration network configuration. -/
def demoNetwork : NetworkConfig where
  chainId := 11155111
  name := "Sepolia"
  deploymentStartBlock := some 0

/-- A raw log whose stable-coin word encodes 123456789 (hex 75bcd15). -/
def demoLogAmountA : RawLog where
  topics := ["0xsig",
    "0x000000000000000000000000000000000000000000000000000000000000b001",
    "0x000000000000000000000000000000000000000000000000000000000000b002"]
  data := "0x" ++ String.mk (List.replicate 57 '0' ++ "75bcd15".data ++ List.replicate 64 '0')
  blockNumber := 7
  transactionHash := "0xaaa"

/-- A raw log whose stable-coin word encodes 0. -/
def demoLogAmountZero : RawLog where
  topics := ["0xsig",
    "0x000000000000000000000000000000000000000000000000000000000000b001",
    "0x000000000000000000000000000000000000000000000000000000000000b002"]
  data := "0x" ++ String.mk (List.replicate 128 '0')
  blockNumber := 8
  transactionHash := "0xbbb"

/-- C6 witness: decoding concrete raw logs produces the exact strings of the
claim. -/
theorem C6_witness :
    (decodeEvent demoNetwork demoLogAmountA).amountSC = "123.456789" ∧
    (decodeEvent demoNetwork demoLogAmountZero).amountSC = "0" := by
  constructor
  · rw [(C6_amount_decoding demoNetwork demoLogAmountA).1]
    decide
  · rw [(C6_amount_decoding demoNetwork demoLogAmountZero).1]
    decide

/-! ### Claim C1: per-network failure isolation in the forward aggregation -/

/-- The two possible outcomes of one network scan: either the scan succeeded
with the sequence `r`, or it threw some exception and `r` is the empty
sequence it degrades to. -/
def ScanOutcome (client : Client) (contractAddress : String) (network : NetworkConfig)
    (merchantAddress : Option String) (r : List TransactionEvent) : Prop :=
  fetchEventsFromNetworkE client contractAddress network merchantAddress = Except.ok r ∨
    ((∃ msg, fetchEventsFromNetworkE client contractAddress network merchantAddress =
        Except.error msg) ∧ r = [])

theorem fetchEventsFromNetwork_outcome (client : Client) (contractAddress : String)
    (network : NetworkConfig) (merchantAddress : Option String)
    (r : List TransactionEvent)
    (h : ScanOutcome client contractAddress network merchantAddress r) :
    fetchEventsFromNetwork client contractAddress network merchantAddress = r := by
  unfold fetchEventsFromNetwork
  rcases h with h | ⟨⟨msg, h⟩, rfl⟩
  · rw [h]
  · rw [h]

/-- C1: for every set of per-network scan outcomes — each of the three networks
independently either succeeding with an event sequence or throwing (e.g. an
RPC error) — `fetchStableCoinPurchases` does not throw and returns exactly the
concatenation of the per-network sequences in registration order, each failed
network contributing the empty sequence, so the aggregate length is the sum of
the successful lengths. -/
theorem C1_partial_failure_isolation
    (c1 c2 c3 : Client) (a1 a2 a3 : String) (n1 n2 n3 : NetworkConfig)
    (merchant : Option String) (r1 r2 r3 : List TransactionEvent)
    (h1 : ScanOutcome c1 a1 n1 merchant r1)
    (h2 : ScanOutcome c2 a2 n2 merchant r2)
    (h3 : ScanOutcome c3 a3 n3 merchant r3) :
    fetchStableCoinPurchases c1 c2 c3 a1 a2 a3 n1 n2 n3 merchant = r1 ++ r2 ++ r3 ∧
    (fetchStableCoinPurchases c1 c2 c3 a1 a2 a3 n1 n2 n3 merchant).length =
      r1.length + r2.length + r3.length := by
  have hmain : fetchStableCoinPurchases c1 c2 c3 a1 a2 a3 n1 n2 n3 merchant =
      r1 ++ r2 ++ r3 := by
    unfold fetchStableCoinPurchases
    rw [fetchEventsFromNetwork_outcome c1 a1 n1 merchant r1 h1,
      fetchEventsFromNetwork_outcome c2 a2 n2 merchant r2 h2,
      fetchEventsFromNetwork_outcome c3 a3 n3 merchant r3 h3]
  refine ⟨hmain, ?_⟩
  rw [hmain]
  simp only [List.length_append]

/-- A raw log used by the demonstration clients. -/
def demoRaw : RawLog where
  topics := ["0xsig", "0xbuyer", "0xreceiver"]
  data := "0x"
  blockNumber := 0
  transactionHash := "0xr"

/-- A client whose single-chunk scan yields five logs. -/
def demoClientFive : Client where
  getBlockNumber := Except.ok 0
  getLogs := fun _ _ _ _ => Except.ok (List.replicate 5 demoRaw)
  getBlock := fun _ => Except.ok 1

/-- A client whose log query throws an RPC error. -/
def demoClientErr : Client where
  getBlockNumber := Except.ok 0
  getLogs := fun _ _ _ _ => Except.error "rpc error"
  getBlock := fun _ => Except.ok 1

/-- A client whose single-chunk scan yields three logs. -/
def demoClientThree : Client where
  getBlockNumber := Except.ok 0
  getLogs := fun _ _ _ _ => Except.ok (List.replicate 3 demoRaw)
  getBlock := fun _ => Except.ok 1

/-- C1 witness: five events, an RPC error, and three events aggregate to
exactly eight events. -/
theorem C1_witness :
    (fetchStableCoinPurchases demoClientFive demoClientErr demoClientThree
        "0xa" "0xb" "0xc" demoNetwork demoNetwork demoNetwork none).length = 8 := by
  have h := (C1_partial_failure_isolation demoClientFive demoClientErr demoClientThree
    "0xa" "0xb" "0xc" demoNetwork demoNetwork demoNetwork none
    ((List.replicate 5 demoRaw).map (decodeEvent demoNetwork)) []
    ((List.replicate 3 demoRaw).map (decodeEvent demoNetwork))
    (Or.inl rfl) (Or.inr ⟨⟨"rpc error", rfl⟩, rfl⟩) (Or.inl rfl)).2
  simpa using h

/-! ### Claim C4: export aggregation sorted by timestamp -/

theorem fetchExport_eq (c1 c2 c3 : Client) (a1 a2 a3 : String)
    (n1 n2 n3 : NetworkConfig) (now : Nat) (limit : Option Nat)
    (merchant : Option String) :
    fetchTransactionsForExport c1 c2 c3 a1 a2 a3 n1 n2 n3 now limit merchant =
      (match limit with
       | some n => (jsSort exportCmp
           (fetchEventsFromNetworkReverse c1 a1 n1 now limit merchant ++
             fetchEventsFromNetworkReverse c2 a2 n2 now limit merchant ++
             fetchEventsFromNetworkReverse c3 a3 n3 now limit merchant)).take n
       | none => jsSort exportCmp
           (fetchEventsFromNetworkReverse c1 a1 n1 now limit merchant ++
             fetchEventsFromNetworkReverse c2 a2 n2 now limit merchant ++
             fetchEventsFromNetworkReverse c3 a3 n3 now limit merchant)) := rfl

/-- C4: the sequence returned by `fetchTransactionsForExport` is sorted
descending by timestamp: whenever two returned events both carry timestamps,
the earlier-indexed event has the larger or equal timestamp. On this code the
situation of a missing timestamp cannot arise at the sort: every event
surviving a reverse scan carries one, which the second conjunct records. -/
theorem C4_export_sorted (c1 c2 c3 : Client) (a1 a2 a3 : String)
    (n1 n2 n3 : NetworkConfig) (now : Nat) (limit : Option Nat)
    (merchant : Option String) :
    List.Pairwise
      (fun a b => ∀ ta tb, a.timestamp = some ta → b.timestamp = some tb → tb ≤ ta)
      (fetchTransactionsForExport c1 c2 c3 a1 a2 a3 n1 n2 n3 now limit merchant) ∧
    (∀ e ∈ fetchTransactionsForExport c1 c2 c3 a1 a2 a3 n1 n2 n3 now limit merchant,
      e.timestamp.isSome) := by
  have hall : ∀ e ∈ (fetchEventsFromNetworkReverse c1 a1 n1 now limit merchant ++
      fetchEventsFromNetworkReverse c2 a2 n2 now limit merchant ++
      fetchEventsFromNetworkReverse c3 a3 n3 now limit merchant),
      e.timestamp.isSome = true := by
    intro e he
    rcases List.mem_append.1 he with h12 | h3
    · rcases List.mem_append.1 h12 with h1 | h2
      · exact mem_fetchReverse_isSome _ _ _ _ _ _ e h1
      · exact mem_fetchReverse_isSome _ _ _ _ _ _ e h2
    · exact mem_fetchReverse_isSome _ _ _ _ _ _ e h3
  have hsorted := jsSort_pairwise exportCmp (fun e => e.timestamp.isSome = true)
    (by
      intro a b c pa pb pc hab hbc
      obtain ⟨ta, hta⟩ := Option.isSome_iff_exists.1 pa
      obtain ⟨tb, htb⟩ := Option.isSome_iff_exists.1 pb
      obtain ⟨tc, htc⟩ := Option.isSome_iff_exists.1 pc
      simp only [exportCmp, hta, htb, htc] at hab hbc ⊢
      omega)
    (by
      intro a b pa pb
      obtain ⟨ta, hta⟩ := Option.isSome_iff_exists.1 pa
      obtain ⟨tb, htb⟩ := Option.isSome_iff_exists.1 pb
      simp only [exportCmp, hta, htb]
      omega)
    _ hall
  have hrel : List.Pairwise
      (fun a b => ∀ ta tb, a.timestamp = some ta → b.timestamp = some tb → tb ≤ ta)
      (jsSort exportCmp
        (fetchEventsFromNetworkReverse c1 a1 n1 now limit merchant ++
          fetchEventsFromNetworkReverse c2 a2 n2 now limit merchant ++
          fetchEventsFromNetworkReverse c3 a3 n3 now limit merchant)) :=
    hsorted.imp (fun hab => by
      intro ta tb hta htb
      simp only [exportCmp, hta, htb] at hab
      omega)
  rw [fetchExport_eq]
  cases limit with
  | none =>
    refine ⟨hrel, ?_⟩
    intro e he
    exact hall e ((jsSort_perm exportCmp _).subset he)
  | some n =>
    refine ⟨hrel.sublist (List.take_sublist _ _), ?_⟩
    intro e he
    exact hall e ((jsSort_perm exportCmp _).subset (List.take_subset _ _ he))

/-- C4 witness: instantiation at concrete clients, one of which fails. -/
theorem C4_witness :
    List.Pairwise
      (fun a b => ∀ ta tb, a.timestamp = some ta → b.timestamp = some tb → tb ≤ ta)
      (fetchTransactionsForExport demoClientFive demoClientErr demoClientThree
        "0xa" "0xb" "0xc" demoNetwork demoNetwork demoNetwork 99 (some 4) none) ∧
    (∀ e ∈ fetchTransactionsForExport demoClientFive demoClientErr demoClientThree
        "0xa" "0xb" "0xc" demoNetwork demoNetwork demoNetwork 99 (some 4) none,
      e.timestamp.isSome) :=
  C4_export_sorted demoClientFive demoClientErr demoClientThree "0xa" "0xb" "0xc"
    demoNetwork demoNetwork demoNetwork 99 (some 4) none

/-! ### Claim C3: single-network reverse scan -/

theorem mem_chunkConcat {α : Type} (F : Nat → Nat → List α) :
    ∀ (chs : List (Nat × Nat)) (x : α),
      x ∈ chunkConcat F chs ↔ ∃ ch ∈ chs, x ∈ F ch.1 ch.2 := by
  intro chs x
  induction chs with
  | nil => simp [chunkConcat]
  | cons ch chs ih => simp [chunkConcat, ih]

theorem withoutTimestamp_update (e : TransactionEvent) (u : Option Nat) :
    withoutTimestamp { e with timestamp := u } = withoutTimestamp e := by
  cases e
  rfl

theorem withoutTimestamp_of_none (e : TransactionEvent) (h : e.timestamp = none) :
    withoutTimestamp e = e := by
  cases e
  rw [withoutTimestamp]
  simp only at h
  rw [h]

/-- C3: a single-network reverse scan, run against any client whose height
query succeeds and whose log oracle is coherent with a ground-truth ledger:
with a numeric limit the result never has more than `limit` events; with limit
`"all"` it contains a decoded copy of every ledger log whose block lies in
`[deploymentStartBlock, currentHeightAtStart]`; and for every limit the result
is sorted descending by block number. -/
theorem C3_reverse_scan (client : Client) (contractAddress : String)
    (network : NetworkConfig) (now : Nat) (merchant : Option String)
    (ledger : List RawLog) (currentBlock : Nat)
    (hbn : client.getBlockNumber = Except.ok currentBlock)
    (hlogs : CoherentLogs client contractAddress merchant ledger) :
    (∀ n, (fetchEventsFromNetworkReverse client contractAddress network now (some n)
        merchant).length ≤ n) ∧
    (∀ raw ∈ ledger, network.deploymentStartBlock.getD 0 ≤ raw.blockNumber →
      raw.blockNumber ≤ currentBlock →
      ∃ e ∈ fetchEventsFromNetworkReverse client contractAddress network now none
          merchant, withoutTimestamp e = decodeEvent network raw) ∧
    (∀ limit, List.Pairwise (fun a b => b.blockNumber ≤ a.blockNumber)
      (fetchEventsFromNetworkReverse client contractAddress network now limit
        merchant)) := by
  have hok : ∀ f t, ∃ l, client.getLogs contractAddress merchant f t = Except.ok l :=
    fun f t => ⟨_, hlogs f t⟩
  have hfetch : ∀ (limit : Option Nat) (collected : List RawLog),
      reverseLoopF client.getLogs contractAddress merchant
          (network.deploymentStartBlock.getD 0) limit (reverseFuel currentBlock)
          currentBlock [] = some (Except.ok collected) →
      fetchEventsFromNetworkReverse client contractAddress network now limit merchant =
        attachTimestamps client now
          ((match limit with
            | some n => (jsSort blockNumberCmp collected).take n
            | none => jsSort blockNumberCmp collected).map (decodeEvent network)) := by
    intro limit collected hloop
    unfold fetchEventsFromNetworkReverse fetchEventsFromNetworkReverseE
    rw [hbn]
    dsimp only
    rw [hloop]
  have hsortdesc : ∀ collected : List RawLog,
      List.Pairwise (fun x y : RawLog => y.blockNumber ≤ x.blockNumber)
        (jsSort blockNumberCmp collected) := by
    intro collected
    have hsorted := jsSort_pairwise blockNumberCmp (fun _ => True)
      (by
        intro a b c _ _ _ h1 h2
        simp only [blockNumberCmp] at h1 h2 ⊢
        omega)
      (by
        intro a b _ _
        simp only [blockNumberCmp]
        omega)
      collected (by intro x _; trivial)
    exact hsorted.imp (by
      intro a b h
      simp only [blockNumberCmp] at h
      omega)
  refine ⟨?_, ?_, ?_⟩
  · intro n
    obtain ⟨collected, hloop⟩ := reverseLoopF_ok client.getLogs contractAddress merchant
      (network.deploymentStartBlock.getD 0) (some n) hok (reverseFuel currentBlock)
      currentBlock []
      (reverseFuel_sufficient (network.deploymentStartBlock.getD 0) currentBlock)
    rw [hfetch (some n) collected hloop, attachTimestamps_eq_map]
    simp only [List.length_map, List.length_take]
    omega
  · intro raw hraw hlo hhi
    have hloopchar := reverseLoopF_char client.getLogs contractAddress merchant
      (network.deploymentStartBlock.getD 0) (logsInRange ledger) hlogs
      (reverseFuel currentBlock) currentBlock []
      (reverseFuel_sufficient (network.deploymentStartBlock.getD 0) currentBlock)
    rw [List.nil_append] at hloopchar
    rw [hfetch none _ hloopchar, attachTimestamps_eq_map]
    have hcov := reverseChunks_cover (network.deploymentStartBlock.getD 0) currentBlock
      raw.blockNumber
    rw [if_pos ⟨hlo, hhi⟩] at hcov
    have hpos : 0 < (reverseChunks (network.deploymentStartBlock.getD 0)
        currentBlock).countP
        (fun ch => ch.1 ≤ raw.blockNumber && raw.blockNumber ≤ ch.2) := by omega
    obtain ⟨ch, hch, hchb⟩ := List.countP_pos_iff.1 hpos
    have hmemfilter : raw ∈ logsInRange ledger ch.1 ch.2 :=
      List.mem_filter.2 ⟨hraw, hchb⟩
    have hmemcc : raw ∈ chunkConcat (logsInRange ledger)
        (reverseChunksF (network.deploymentStartBlock.getD 0)
          (reverseFuel currentBlock) currentBlock) :=
      (mem_chunkConcat (logsInRange ledger) _ raw).2 ⟨ch, hch, hmemfilter⟩
    refine ⟨{ decodeEvent network raw with
        timestamp := some (getBlockTimestamp client now
          (decodeEvent network raw).blockNumber) }, ?_, ?_⟩
    · exact List.mem_map_of_mem _ (List.mem_map_of_mem _
        (((jsSort_perm blockNumberCmp _).mem_iff).2 hmemcc))
    · rw [withoutTimestamp_update]
      exact withoutTimestamp_of_none _ rfl
  · intro limit
    obtain ⟨collected, hloop⟩ := reverseLoopF_ok client.getLogs contractAddress merchant
      (network.deploymentStartBlock.getD 0) limit hok (reverseFuel currentBlock)
      currentBlock []
      (reverseFuel_sufficient (network.deploymentStartBlock.getD 0) currentBlock)
    rw [hfetch limit collected hloop, attachTimestamps_eq_map, List.map_map,
      List.pairwise_map]
    cases limit with
    | none =>
      exact (hsortdesc collected).imp (by intro a b h; exact h)
    | some n =>
      exact ((hsortdesc collected).sublist (List.take_sublist _ _)).imp
        (by intro a b h; exact h)

/-- A two-entry ground-truth ledger for the coherent demonstration client. -/
def demoLedgerLogs : List RawLog :=
  [{ topics := ["0xsig", "0xb1", "0xr1"]
     data := "0x"
     blockNumber := 7
     transactionHash := "0x1" },
   { topics := ["0xsig", "0xb2", "0xr2"]
     data := "0x"
     blockNumber := 2
     transactionHash := "0x2" }]

/-- A client at height 10 whose log oracle answers exactly from the ledger. -/
def demoCoherentClient : Client where
  getBlockNumber := Except.ok 10
  getLogs := fun _ _ f t => Except.ok (logsInRange demoLedgerLogs f t)
  getBlock := fun _ => Except.ok 1

/-- C3 witness: the reverse-scan contract instantiated at the coherent
demonstration client. -/
theorem C3_witness :
    demoCoherentClient.getBlockNumber = Except.ok 10 ∧
    (∀ n, (fetchEventsFromNetworkReverse demoCoherentClient "0xa" demoNetwork 99
        (some n) none).length ≤ n) ∧
    (∀ limit, List.Pairwise (fun a b => b.blockNumber ≤ a.blockNumber)
      (fetchEventsFromNetworkReverse demoCoherentClient "0xa" demoNetwork 99 limit
        none)) :=
  ⟨rfl,
    (C3_reverse_scan demoCoherentClient "0xa" demoNetwork 99 none demoLedgerLogs 10
      rfl (fun _ _ => rfl)).1,
    (C3_reverse_scan demoCoherentClient "0xa" demoNetwork 99 none demoLedgerLogs 10
      rfl (fun _ _ => rfl)).2.2⟩

end StablePay
